import Mathlib

/-!
Verification of the forge-utils CLI core (dependency resolution, installation,
removal, configuration discovery, registry search) against its specification.

The TypeScript sources are shallowly embedded: JS strings are modelled as
lists of characters, JS Sets and objects as insertion-ordered lists,
filesystem state as an association list from paths to file contents, and
thrown exceptions as Except values.  Recursive depth-first traversals are
given explicit fuel; the drivers pass enough fuel that the embedded
functions agree with the unbounded recursion of the source.
-/

namespace ForgeUtils

/-- Strings of the embedded program, modelled as lists of characters so that
all operations compute by kernel reduction. -/
abbrev Str := List Char

/-- Coercion from Lean string literals into the model. -/
def str (s : String) : Str := s.data

/-- Registry entry, from interface UtilityMeta in src/src/cli/remove.ts
(registry module section). -/
structure UtilityMeta where
  name : Str
  category : Str
  file : Str
  description : Str
  dependencies : List Str
deriving DecidableEq, Repr

/-- Registry, from interface Registry in the registry module.  The categories
list is not consulted by the functions under verification (category expansion
derives tags from the utilities themselves), so only utilities are kept. -/
structure Registry where
  utilities : List UtilityMeta
deriving DecidableEq, Repr

/-- From findUtility in the registry module: exact name lookup. -/
def findUtility (reg : Registry) (name : Str) : Option UtilityMeta :=
  reg.utilities.find? (fun u => u.name = name)

/-- Dependency list of a name, empty when the name is absent from the
registry; mirrors the guard  if (utility && utility.dependencies)  used by
topologicalSort in src/unnamed/part_002. -/
def depsOf (reg : Registry) (name : Str) : List Str :=
  match findUtility reg name with
  | some u => u.dependencies
  | none => []

/-- JS Set insertion: append the element unless it is already present. -/
def jsInsert (l : List Str) (x : Str) : List Str :=
  if x ∈ l then l else l ++ [x]

/-- Adding all elements of xs to the set l, in order. -/
def jsUnion (l xs : List Str) : List Str :=
  xs.foldl jsInsert l

/-- JS dedup via spread of a Set, keeping first occurrences in order. -/
def jsDedup (l : List Str) : List Str :=
  l.foldl jsInsert []

/-- Mutable state of topologicalSort in src/unnamed/part_002: the visited set
and the accumulating result array.  The visiting set is passed separately
since the source removes a node from it on the way back up, which for the
recursive embedding is the same as scoping it to the call. -/
structure SortState where
  visited : List Str
  result : List Str
deriving Repr

/-- Error message thrown by topologicalSort on a circular dependency. -/
def circularMsg (u : Str) : Str :=
  str "Circular dependency detected involving \x22" ++ u ++ str "\x22"

/-- Error used when the embedding runs out of fuel; unreachable under the
fuel supplied by topologicalSort below. -/
def fuelMsg : Str := str "Maximum recursion depth exceeded"

/-- Sequencing of an exception-throwing visit over a list of nodes,
threading the sort state; the for-loop shape shared by the dependency loop
inside visit. -/
def visitFold (f : Str → SortState → Except Str SortState) :
    List Str → SortState → Except Str SortState
  | [], st => Except.ok st
  | d :: ds, st =>
    match f d st with
    | Except.error e => Except.error e
    | Except.ok st' => visitFold f ds st'

/-- Function visit inside topologicalSort (src/unnamed/part_002 lines
188-211): cycle check against the visiting set, memoisation against the
visited set, then recursion into dependencies that belong to the input
list, then postorder push onto the result. -/
def visit (reg : Registry) (utils : List Str) :
    Nat → Str → List Str → SortState → Except Str SortState
  | 0, _, _, _ => Except.error fuelMsg
  | Nat.succ fuel, u, visiting, st =>
    if u ∈ visiting then
      Except.error (circularMsg u)
    else if u ∈ st.visited then
      Except.ok st
    else
      match visitFold (fun d st' => visit reg utils fuel d (u :: visiting) st')
          ((depsOf reg u).filter (fun d => d ∈ utils)) st with
      | Except.error e => Except.error e
      | Except.ok st' =>
        Except.ok ⟨u :: st'.visited, st'.result ++ [u]⟩

/-- The loop of topologicalSort over the deduplicated input list. -/
def sortLoop (reg : Registry) (utils : List Str) (fuel : Nat) :
    List Str → SortState → Except Str SortState
  | [], st => Except.ok st
  | u :: us, st =>
    match visit reg utils fuel u [] st with
    | Except.error e => Except.error e
    | Except.ok st' => sortLoop reg utils fuel us st'

/-- From topologicalSort in src/unnamed/part_002 lines 183-220.  The fuel
bound utils.length + 1 dominates the depth of the source recursion, whose
visiting set only ever holds distinct members of the input list. -/
def topologicalSort (reg : Registry) (utils : List Str) :
    Except Str (List Str) :=
  match sortLoop reg utils (utils.length + 1) (jsDedup utils) ⟨[], []⟩ with
  | Except.error e => Except.error e
  | Except.ok st => Except.ok st.result

/-- Error message thrown by collectDependencies for an unknown name. -/
def notFoundMsg (u : Str) : Str :=
  str "Utility \x22" ++ u ++ str "\x22 not found in registry"

/-- Mutable state shared by the collectDependencies calls inside
resolveDependencies (src/unnamed/part_002 lines 131-181): the visited set
and the dependencyMap, an insertion-ordered record from names to their
collected dependency sets. -/
structure CollectState where
  visited : List Str
  depMap : List (Str × List Str)
deriving Repr

/-- The forEach shape over dependencies that unions the transitively
collected sets into an accumulator while threading the collection state. -/
def collectFold (f : Str → CollectState → Except Str (List Str × CollectState)) :
    List Str → List Str → CollectState → Except Str (List Str × CollectState)
  | [], acc, st => Except.ok (acc, st)
  | d :: ds, acc, st =>
    match f d st with
    | Except.error e => Except.error e
    | Except.ok (tds, st') => collectFold f ds (jsUnion acc tds) st'

/-- Function collectDependencies (src/unnamed/part_002 lines 140-166):
memoisation on the visited set, lookup (throwing for unknown names, after
the name is already marked visited), then the direct dependencies are
collected, and unless noDeps is set the recursively collected sets of each
dependency are unioned in; finally the set is recorded in the
dependencyMap. -/
def collect (reg : Registry) (noDeps : Bool) :
    Nat → Str → CollectState → Except Str (List Str × CollectState)
  | 0, _, _ => Except.error fuelMsg
  | Nat.succ fuel, name, st =>
    if name ∈ st.visited then
      Except.ok ([], st)
    else
      let st1 : CollectState := ⟨st.visited ++ [name], st.depMap⟩
      match findUtility reg name with
      | none => Except.error (notFoundMsg name)
      | some u =>
        let direct := jsUnion [] u.dependencies
        if noDeps then
          Except.ok (direct, ⟨st1.visited, st1.depMap ++ [(name, direct)]⟩)
        else
          match collectFold (fun d st' => collect reg noDeps fuel d st')
              u.dependencies direct st1 with
          | Except.error e => Except.error e
          | Except.ok (allDeps, st2) =>
            Except.ok (allDeps, ⟨st2.visited, st2.depMap ++ [(name, allDeps)]⟩)

/-- The loop of resolveDependencies over the requested names, accumulating
the allDependencies set. -/
def resolveLoop (reg : Registry) (noDeps : Bool) (fuel : Nat) :
    List Str → List Str → CollectState →
    Except Str (List Str × CollectState)
  | [], acc, st => Except.ok (acc, st)
  | n :: ns, acc, st =>
    match collect reg noDeps fuel n st with
    | Except.error e => Except.error e
    | Except.ok (deps, st') => resolveLoop reg noDeps fuel ns (jsUnion acc deps) st'

/-- From resolveDependencies in src/unnamed/part_002 lines 131-181: collect
dependencies of every requested name, then topologically sort the union of
collected dependencies and requested names.  Returns the installation order
together with the dependencyMap.  The collection fuel dominates the source
recursion depth, which is bounded by the number of distinct names ever
added to the visited set. -/
def resolveDependencies (reg : Registry) (utilityNames : List Str)
    (noDeps : Bool) : Except Str (List Str × List (Str × List Str)) :=
  let fuel := reg.utilities.length + utilityNames.length + 2
  match resolveLoop reg noDeps fuel utilityNames [] ⟨[], []⟩ with
  | Except.error e => Except.error e
  | Except.ok (allDependencies, st) =>
    match topologicalSort reg (allDependencies ++ utilityNames) with
    | Except.error e => Except.error e
    | Except.ok order => Except.ok (order, st.depMap)

/-- From expandCategoryNames in src/unnamed/part_002 lines 99-129: with an
empty request the category tag of every utility is returned; otherwise each
requested name that equals a category tag of some utility expands to the
names of the utilities in that category, in registry order, and every other
name is kept as is. -/
def expandCategoryNames (reg : Registry) (utilityNames : List Str) : List Str :=
  if utilityNames = [] then
    reg.utilities.map (fun u => u.category)
  else
    let categories := jsDedup (reg.utilities.map (fun u => u.category))
    utilityNames.flatMap (fun name =>
      if name ∈ categories then
        (reg.utilities.filter (fun u => u.category = name)).map (fun u => u.name)
      else [name])

/-- From validateUtilities in src/unnamed/part_002 lines 222-248: split the
names into those found in the registry and those not (the fuzzy suggestion
list built there only feeds console output and is not modelled). -/
def validateUtilities (reg : Registry) (names : List Str) :
    List Str × List Str :=
  (names.filter (fun n => (findUtility reg n).isSome),
   names.filter (fun n => ¬ (findUtility reg n).isSome))

/-- Status of one installation, from interface InstallationResult. -/
inductive InstallStatus where
  | installed
  | skipped
  | overwritten
  | failed
deriving DecidableEq, Repr

/-- Per-utility installation outcome, from interface InstallationResult in
src/unnamed/part_002.  The utility field is optional because the source
reads it through a non-null assertion that can in fact be undefined when a
direct dependency name is absent from the registry under noDeps. -/
structure InstallationResult where
  utility : Option UtilityMeta
  status : InstallStatus
  error : Option Str
  path : Option Str
  isDependency : Option Bool
deriving DecidableEq, Repr

/-- Options accepted by the add command. -/
structure AddOptions where
  overwrite : Bool
  noDeps : Bool
deriving DecidableEq, Repr

/-- Resolved project configuration, from interface ProjectConfig in
src/unnamed/part_002. -/
structure ProjectConfig where
  typescript : Bool
  directory : Str
  rootPath : Str
deriving DecidableEq, Repr

/-- Filesystem model: an association list from absolute paths to file
contents, first entry wins. -/
abbrev FS := List (Str × Str)

/-- Existence check on the filesystem model, as fs.pathExists. -/
def pathExists (fs : FS) (p : Str) : Bool :=
  fs.any (fun e => e.1 = p)

/-- Write (create or replace) a file, as fs.writeFile. -/
def writeFile (fs : FS) (p c : Str) : FS :=
  (p, c) :: fs.filter (fun e => ¬ e.1 = p)

/-- Delete a file, as fs.remove on a file path. -/
def removeFile (fs : FS) (p : Str) : FS :=
  fs.filter (fun e => ¬ e.1 = p)

/-- Path concatenation, as path.join on already-clean segments. -/
def pathJoin (a b : Str) : Str := a ++ str "/" ++ b

/-- Replacement for the regex .(js|ts)$ used by installUtility: swap a
trailing .js or .ts extension for the given one, leaving other names
unchanged. -/
def replaceJsTsExt (file ext : Str) : Str :=
  if str ".js" <:+ file ∨ str ".ts" <:+ file then
    file.take (file.length - 3) ++ ext
  else file

/-- Replacement for the regex .js$ used by removeUtility when the project is
typed: swap only a trailing .js for .ts. -/
def replaceJsWithTs (file : Str) : Str :=
  if str ".js" <:+ file then file.take (file.length - 3) ++ str ".ts" else file

/-- Replacement for the regex .ts$ used by removeUtility when the project is
untyped: swap only a trailing .ts for .js. -/
def replaceTsWithJs (file : Str) : Str :=
  if str ".ts" <:+ file then file.take (file.length - 3) ++ str ".js" else file

/-- External collaborators of installUtility, passed as parameters of the
embedding: the source-content lookup performed by getUtilityContent over
the package search paths (none models the not-found throw), the
TypeScript-to-JavaScript transform, the reverse best-effort annotation
pass, and the regex heuristic isTypeScriptContent. -/
structure InstallEnv where
  getContent : UtilityMeta → Option Str
  transform : Str → Str
  annotate : Str → Str
  isTS : Str → Bool

/-- From installUtility in src/unnamed/part_002 lines 250-318: compute the
target path with the extension chosen by the project mode, return skipped
when the target exists and overwrite is not set, return failed when no
source content is found, otherwise transform as needed and write the file.
The final status check reproduces line 303 of the source verbatim: the
existence test there runs after the write. -/
def installUtility (env : InstallEnv) (utility : UtilityMeta)
    (config : ProjectConfig) (options : AddOptions) (fs : FS) :
    FS × InstallationResult :=
  let fileName :=
    if config.typescript then replaceJsTsExt utility.file (str ".ts")
    else replaceJsTsExt utility.file (str ".js")
  let targetFile := pathJoin (pathJoin config.rootPath config.directory) fileName
  if pathExists fs targetFile ∧ ¬ options.overwrite then
    (fs, ⟨some utility, InstallStatus.skipped, none, some targetFile, none⟩)
  else
    match env.getContent utility with
    | none =>
      (fs, ⟨some utility, InstallStatus.failed,
        some (str "Source file not found: " ++ utility.file), none, none⟩)
    | some raw =>
      let content :=
        if ¬ config.typescript ∧ env.isTS raw then env.transform raw
        else if config.typescript ∧ ¬ env.isTS raw then env.annotate raw
        else raw
      let fs' := writeFile fs targetFile content
      let status :=
        if pathExists fs' targetFile ∧ options.overwrite then
          InstallStatus.overwritten
        else InstallStatus.installed
      (fs', ⟨some utility, status, none, some targetFile, none⟩)

/-- The installation loop of add (src/unnamed/part_002 lines 82-88): every
name in the resolved order is looked up, installed, and marked as a
dependency exactly when it is not among the validated requested names.  A
name absent from the registry reaches installUtility as undefined there;
the resulting field access throws inside the try block of installUtility,
which catches it into a failed result. -/
def installLoop (env : InstallEnv) (reg : Registry) (config : ProjectConfig)
    (options : AddOptions) (valid : List Str) :
    List Str → FS → FS × List InstallationResult
  | [], fs => (fs, [])
  | n :: ns, fs =>
    match findUtility reg n with
    | some u =>
      let (fs', r) := installUtility env u config options fs
      let r' : InstallationResult :=
        ⟨r.utility, r.status, r.error, r.path, some (¬ n ∈ valid)⟩
      let (fs'', rs) := installLoop env reg config options valid ns fs'
      (fs'', r' :: rs)
    | none =>
      let r : InstallationResult :=
        ⟨none, InstallStatus.failed,
          some (str "Cannot read properties of undefined"), none,
          some (¬ n ∈ valid)⟩
      let (fs'', rs) := installLoop env reg config options valid ns fs
      (fs'', r :: rs)

/-- From the add command in src/unnamed/part_002 lines 31-97: expand
categories, validate, stop on any invalid name, stop when the project is
not initialised, resolve dependencies (a thrown resolution error is caught
at the top of add, which exits before installing anything), then install
the resolved order in sequence.  Returns the final filesystem and the
result list; every early exit returns the untouched filesystem and no
results. -/
def add (env : InstallEnv) (reg : Registry) (config? : Option ProjectConfig)
    (utilityNames : List Str) (options : AddOptions) (fs : FS) :
    FS × List InstallationResult :=
  let expanded := expandCategoryNames reg utilityNames
  let vi := validateUtilities reg expanded
  if ¬ vi.2 = [] then (fs, [])
  else
    match config? with
    | none => (fs, [])
    | some config =>
      match resolveDependencies reg vi.1 options.noDeps with
      | Except.error _ => (fs, [])
      | Except.ok (toInstall, _) =>
        installLoop env reg config options vi.1 toInstall fs

/-- From isUtilityInstalled in src/unnamed/part_002 lines 600-618, with the
project configuration and filesystem passed explicitly: the utility is
installed when it resolves in the registry and the file variant selected by
the current mode exists. -/
def isUtilityInstalled (reg : Registry) (config : ProjectConfig) (fs : FS)
    (name : Str) : Bool :=
  match findUtility reg name with
  | none => false
  | some u =>
    let fileName :=
      if config.typescript then replaceJsWithTs u.file
      else replaceTsWithJs u.file
    pathExists fs (pathJoin (pathJoin config.rootPath config.directory) fileName)

/-- Status of one removal, from interface RemovalResult in
src/src/cli/remove.ts. -/
inductive RemovalStatus where
  | removed
  | not_found
  | not_installed
  | failed
deriving DecidableEq, Repr

/-- Per-utility removal outcome, from interface RemovalResult. -/
structure RemovalResult where
  utility : UtilityMeta
  status : RemovalStatus
  error : Option Str
  path : Option Str
deriving DecidableEq, Repr

/-- From removeUtility in src/src/cli/remove.ts lines 134-176: the file name
uses the single extension variant selected by the current project mode; when
that path does not exist the result is not_installed, otherwise the file is
deleted and the result is removed.  The subsequent clean-up of an empty
category directory only ever deletes an empty directory, which has no effect
on the path-to-content map used as the filesystem model. -/
def removeUtility (utility : UtilityMeta) (config : ProjectConfig) (fs : FS) :
    FS × RemovalResult :=
  let fileName :=
    if config.typescript then replaceJsWithTs utility.file
    else replaceTsWithJs utility.file
  let targetFile := pathJoin (pathJoin config.rootPath config.directory) fileName
  if ¬ pathExists fs targetFile then
    (fs, ⟨utility, RemovalStatus.not_installed, some (str "File not found"), none⟩)
  else
    (removeFile fs targetFile,
      ⟨utility, RemovalStatus.removed, none, some targetFile⟩)

/-- The removal loop of the remove command (src/src/cli/remove.ts lines
54-58).  Names reaching the loop were validated to resolve in the registry,
so the lookup in the loop cannot miss; the none branch is dead code kept for
totality. -/
def removeLoop (reg : Registry) (config : ProjectConfig) :
    List Str → FS → FS × List RemovalResult
  | [], fs => (fs, [])
  | n :: ns, fs =>
    match findUtility reg n with
    | some u =>
      let (fs', r) := removeUtility u config fs
      let (fs'', rs) := removeLoop reg config ns fs'
      (fs'', r :: rs)
    | none => removeLoop reg config ns fs

/-- From the remove command in src/src/cli/remove.ts lines 14-69: stop when
the project is not initialised, keep only requested names that resolve and
are currently installed (validateRemovalTargets), then remove them in
sequence.  The orphan scan that follows only prints advice. -/
def removeCmd (reg : Registry) (config? : Option ProjectConfig)
    (names : List Str) (fs : FS) : FS × List RemovalResult :=
  match config? with
  | none => (fs, [])
  | some config =>
    let valid := names.filter (fun n =>
      (findUtility reg n).isSome ∧ isUtilityInstalled reg config fs n)
    removeLoop reg config valid fs

/-- Parsed shape of the new-format config file .forge-utils.json; fields are
optional because the JSON may omit them (JS falsy defaults apply). -/
structure NewConfigFile where
  typescript : Option Bool
  directory : Option Str
deriving DecidableEq, Repr

/-- Parsed shape of the legacy config file forge-utils.config.json. -/
structure OldConfigFile where
  utilsPath : Option Str
deriving DecidableEq, Repr

/-- The dependency fields of package.json consulted by
detectTypeScriptProject: merged dependencies and devDependencies. -/
structure PackageJson where
  hasTypescriptDep : Bool
  hasTypesNodeDep : Bool
  hasTsNodeDep : Bool
deriving DecidableEq, Repr

/-- The slice of the project directory observed by getProjectConfig and
detectTypeScriptProject in src/unnamed/part_002 lines 343-415: existence of
the files they probe and the parse outcome of each JSON document they read
(none models a readJson throw on an existing file). -/
structure ProjectWorld where
  cwd : Str
  newConfigExists : Bool
  newConfig : Option NewConfigFile
  oldConfigExists : Bool
  oldConfig : Option OldConfigFile
  defaultUtilsDirExists : Bool
  hasTsconfig : Bool
  hasTsconfigStarVariant : Bool
  hasSrcTypesTs : Bool
  hasSrcIndexTs : Bool
  packageJsonExists : Bool
  packageJson : Option PackageJson
deriving DecidableEq, Repr

/-- From detectTypeScriptProject in src/unnamed/part_002 lines 386-415: any
of the four indicator paths (the literal names tsconfig.json,
tsconfig.*.json, src/types.ts, src/index.ts) implies a typed project;
otherwise package.json is consulted for the typescript, types-for-node or
ts-node packages; a missing or unparseable package.json yields false. -/
def detectTypeScriptProject (w : ProjectWorld) : Bool :=
  if w.hasTsconfig ∨ w.hasTsconfigStarVariant ∨ w.hasSrcTypesTs ∨ w.hasSrcIndexTs then
    true
  else if w.packageJsonExists then
    match w.packageJson with
    | some p => p.hasTypescriptDep ∨ p.hasTypesNodeDep ∨ p.hasTsNodeDep
    | none => false
  else false

/-- JS string-or-default: an absent or empty string falls back, mirroring
the truthiness of  config.directory || defaultValue. -/
def strOrDefault (v : Option Str) (d : Str) : Str :=
  match v with
  | some s => if s = [] then d else s
  | none => d

/-- From getProjectConfig in src/unnamed/part_002 lines 343-384: the
new-format file wins, then the legacy file with typescript forced true,
then the existence of the default lib/utils directory with the heuristic
mode detection, and otherwise null.  A readJson throw is caught and
returns null. -/
def getProjectConfig (w : ProjectWorld) : Option ProjectConfig :=
  if w.newConfigExists then
    match w.newConfig with
    | none => none
    | some c =>
      some ⟨(c.typescript).getD false, strOrDefault c.directory (str "lib/utils"), w.cwd⟩
  else if w.oldConfigExists then
    match w.oldConfig with
    | none => none
    | some c =>
      some ⟨true, strOrDefault c.utilsPath (str "lib/utils"), w.cwd⟩
  else if w.defaultUtilsDirExists then
    some ⟨detectTypeScriptProject w, str "lib/utils", w.cwd⟩
  else none

/-- Search options, from interface SearchOptions in the registry module. -/
structure SearchOptions where
  limit : Option Nat
  category : Option Str
  includeDescription : Option Bool
deriving DecidableEq, Repr

/-- Case-insensitive lowering of a model string, as toLowerCase. -/
def strLower (s : Str) : Str := s.map Char.toLower

/-- Substring containment, as the JS String.includes. -/
def strIncludes (s sub : Str) : Bool := sub <:+: s

/-- Filter predicate of searchUtilities (registry module lines 399-413):
the optional category filter applies only when the category option is a
truthy string, then the lowered name is matched, then the lowered
description when includeDescription (defaulted to true) allows it. -/
def searchMatches (opts : SearchOptions) (lq : Str) (u : UtilityMeta) : Bool :=
  (match opts.category with
   | some c => decide (c = []) || decide (u.category = c)
   | none => true) &&
  (strIncludes (strLower u.name) lq ||
   ((opts.includeDescription).getD true && strIncludes (strLower u.description) lq))

/-- Rank given to a utility by the sort comparator of searchUtilities:
exact lowered-name match, then lowered-name prefix match, then the rest. -/
def searchRank (lq : Str) (u : UtilityMeta) : Nat :=
  if strLower u.name = lq then 0
  else if lq <+: strLower u.name then 1
  else 2

/-- Total order implemented by the comparator of searchUtilities (registry
module lines 415-429): by rank, ties broken lexicographically by name. -/
def searchLe (lq : Str) (a b : UtilityMeta) : Bool :=
  decide (searchRank lq a < searchRank lq b ∨
    (searchRank lq a = searchRank lq b ∧ a.name ≤ b.name))

/-- From searchUtilities in src/src/cli/remove.ts lines 386-432 (registry
module): filter, stable sort by the comparator, then slice when the limit
option is truthy (a limit of zero is falsy in JS and does not truncate). -/
def searchUtilities (reg : Registry) (query : Str) (opts : SearchOptions) :
    List UtilityMeta :=
  let lq := strLower query
  let results := reg.utilities.filter (searchMatches opts lq)
  let sorted := results.mergeSort (searchLe lq)
  match opts.limit with
  | some l => if l ≠ 0 then sorted.take l else sorted
  | none => sorted

/-- Position of the first occurrence of x in a list (length of the list
when absent); the index notion used to state ordering properties of the
installation order. -/
def idxOf (x : Str) : List Str → Nat
  | [] => 0
  | y :: l => if y = x then 0 else idxOf x l + 1

/-- Edge of the dependency graph: a depends directly on b. -/
def dependsOn (reg : Registry) (a b : Str) : Prop :=
  b ∈ depsOf reg a

/-- The name w lies on a dependency cycle all of whose members belong to
the given name set: there is a chain of direct dependencies from w back to
itself. -/
def memberOfCycle (reg : Registry) (utils : List Str) (w : Str) : Prop :=
  ∃ l, w ∈ utils ∧ (∀ x ∈ l, x ∈ utils) ∧
    List.Chain (dependsOn reg) w (l ++ [w])

instance decidableDependsOn (reg : Registry) (a b : Str) :
    Decidable (dependsOn reg a b) :=
  inferInstanceAs (Decidable (b ∈ depsOf reg a))

/-- Every dependency edge internal to the name set is respected by the
list: the dependency occurs in the list strictly before the dependent. -/
def orderedByDeps (reg : Registry) (utils : List Str) (res : List Str) : Prop :=
  ∀ a, a ∈ res → ∀ b, b ∈ depsOf reg a → b ∈ utils →
    b ∈ res ∧ idxOf b res < idxOf a res

/-- Invariant maintained by the sort state: visited and result hold the
same names, the result has no duplicates, stays inside the input name set,
and respects all internal dependency edges. -/
def sortInv (reg : Registry) (utils : List Str) (st : SortState) : Prop :=
  (∀ x, x ∈ st.visited ↔ x ∈ st.result) ∧
  st.result.Nodup ∧
  (∀ x, x ∈ st.result → x ∈ utils) ∧
  orderedByDeps reg utils st.result

/-- Registry integrity, as stated in the data-model section of the spec:
every name appearing in a dependency list resolves in the registry. -/
def registryIntegrity (reg : Registry) : Prop :=
  ∀ u, u ∈ reg.utilities → ∀ d, d ∈ u.dependencies → (findUtility reg d).isSome

/-- Names of the utilities of a category, in registry order. -/
def namesOfCategory (reg : Registry) (x : Str) : List Str :=
  (reg.utilities.filter (fun u => u.category = x)).map (fun u => u.name)

-- Concrete fixtures used by the scenario theorems and witnesses below.

/-- Utility A of the chain registry: no dependencies. -/
def uA : UtilityMeta := ⟨str "A", str "misc", str "A.ts", str "", []⟩

/-- Utility B of the chain registry: requires A. -/
def uB : UtilityMeta := ⟨str "B", str "misc", str "B.ts", str "", [str "A"]⟩

/-- Utility C of the chain registry: requires B. -/
def uC : UtilityMeta := ⟨str "C", str "misc", str "C.ts", str "", [str "B"]⟩

/-- Chain registry of the concrete scenario in the spec. -/
def regABC : Registry := ⟨[uA, uB, uC]⟩

/-- Utility X of the cyclic registry: requires Y. -/
def uX : UtilityMeta := ⟨str "X", str "misc", str "X.ts", str "", [str "Y"]⟩

/-- Utility Y of the cyclic registry: requires X. -/
def uY : UtilityMeta := ⟨str "Y", str "misc", str "Y.ts", str "", [str "X"]⟩

/-- Registry with the two-element dependency cycle X, Y. -/
def regXY : Registry := ⟨[uX, uY]⟩

/-- Trivial installation environment: every source is available and no
transformation changes the content. -/
def envT : InstallEnv := ⟨fun _ => some (str "body"), id, id, fun _ => false⟩

/-- Typed project configuration used by the concrete scenarios. -/
def cfgT : ProjectConfig := ⟨true, str "lib/utils", str "/p"⟩

/-- Registry in which the utility name a is also the category tag of
utility b; used to refute idempotence of category expansion. -/
def regClash : Registry :=
  ⟨[⟨str "a", str "X", str "a.ts", str "", []⟩,
    ⟨str "b", str "a", str "b.ts", str "", []⟩]⟩
/-- Untyped project configuration used by concrete removal scenarios. -/
def cfgF : ProjectConfig := ⟨false, str "lib/utils", str "/p"⟩

/-- Utility whose registry file name carries the untyped extension. -/
def uJs : UtilityMeta := ⟨str "u", str "c", str "u.js", str "", []⟩

/-- Filesystem holding only the untyped variant of the installed file. -/
def fsUntyped : FS := [(pathJoin (pathJoin (str "/p") (str "lib/utils")) (str "u.js"), str "x")]

theorem idxOf_lt_length {x : Str} {l : List Str} (h : x ∈ l) :
    idxOf x l < l.length := by
  induction l with
  | nil => cases h
  | cons y t ih =>
    by_cases hyx : y = x
    · simp [idxOf, hyx]
    · rcases List.mem_cons.mp h with h1 | h2
      · exact absurd h1.symm hyx
      · simpa [idxOf, hyx] using ih h2

theorem idxOf_append_left {x : Str} {l₁ : List Str} (l₂ : List Str)
    (h : x ∈ l₁) : idxOf x (l₁ ++ l₂) = idxOf x l₁ := by
  induction l₁ with
  | nil => cases h
  | cons y t ih =>
    by_cases hyx : y = x
    · simp [idxOf, hyx]
    · rcases List.mem_cons.mp h with h1 | h2
      · exact absurd h1.symm hyx
      · simp [idxOf, hyx, ih h2]

theorem idxOf_append_right {x : Str} {l₁ : List Str} (l₂ : List Str)
    (h : ¬ x ∈ l₁) : idxOf x (l₁ ++ l₂) = l₁.length + idxOf x l₂ := by
  induction l₁ with
  | nil => simp [idxOf]
  | cons y t ih =>
    have hyx : ¬ y = x := fun e => h (by simp [e])
    have hxt : ¬ x ∈ t := fun m => h (List.mem_cons_of_mem _ m)
    simp [idxOf, hyx, ih hxt, List.length_cons]
    omega

theorem mem_jsInsert {x a : Str} {l : List Str} :
    x ∈ jsInsert l a ↔ x ∈ l ∨ x = a := by
  unfold jsInsert
  split
  · constructor
    · exact fun h => Or.inl h
    · rintro (h | rfl)
      · exact h
      · assumption
  · simp [or_comm]

theorem mem_foldl_jsInsert {x : Str} (l : List Str) :
    ∀ acc : List Str, x ∈ l.foldl jsInsert acc ↔ x ∈ acc ∨ x ∈ l := by
  induction l with
  | nil => simp
  | cons a t ih =>
    intro acc
    rw [List.foldl_cons, ih, mem_jsInsert]
    simp only [List.mem_cons]
    tauto

theorem mem_jsDedup {x : Str} {l : List Str} : x ∈ jsDedup l ↔ x ∈ l := by
  unfold jsDedup
  rw [mem_foldl_jsInsert]
  simp

theorem mem_jsUnion {x : Str} {l xs : List Str} :
    x ∈ jsUnion l xs ↔ x ∈ l ∨ x ∈ xs := mem_foldl_jsInsert xs l

theorem visit_ok_all (reg : Registry) (utils : List Str) : ∀ fuel : Nat,
    (∀ u visiting st st', visit reg utils fuel u visiting st = Except.ok st' →
      u ∈ utils → sortInv reg utils st →
      (∃ r, st'.result = st.result ++ r) ∧
      (∀ x, x ∈ st.visited → x ∈ st'.visited) ∧
      u ∈ st'.visited ∧
      (∀ x, x ∈ visiting → x ∈ st'.visited → x ∈ st.visited) ∧
      sortInv reg utils st') ∧
    (∀ ds visiting st st',
      visitFold (fun d s => visit reg utils fuel d visiting s) ds st = Except.ok st' →
      (∀ d, d ∈ ds → d ∈ utils) →
      sortInv reg utils st →
      (∃ r, st'.result = st.result ++ r) ∧
      (∀ x, x ∈ st.visited → x ∈ st'.visited) ∧
      (∀ d, d ∈ ds → d ∈ st'.visited) ∧
      (∀ x, x ∈ visiting → x ∈ st'.visited → x ∈ st.visited) ∧
      sortInv reg utils st') := by
  intro fuel
  induction fuel with
  | zero =>
    constructor
    · intro u visiting st st' h
      simp [visit] at h
    · intro ds visiting st st' h hds hinv
      cases ds with
      | nil =>
        simp only [visitFold, Except.ok.injEq] at h
        subst h
        exact ⟨⟨[], by simp⟩, fun x hx => hx, by simp, fun x _ hx => hx, hinv⟩
      | cons d ds' =>
        simp [visitFold, visit] at h
  | succ fuel ih =>
    have ihQ := ih.2
    have hP : ∀ u visiting st st',
        visit reg utils (Nat.succ fuel) u visiting st = Except.ok st' →
        u ∈ utils → sortInv reg utils st →
        (∃ r, st'.result = st.result ++ r) ∧
        (∀ x, x ∈ st.visited → x ∈ st'.visited) ∧
        u ∈ st'.visited ∧
        (∀ x, x ∈ visiting → x ∈ st'.visited → x ∈ st.visited) ∧
        sortInv reg utils st' := by
      intro u visiting st st' h hu hinv
      rw [visit] at h
      by_cases h1 : u ∈ visiting
      · rw [if_pos h1] at h
        cases h
      rw [if_neg h1] at h
      by_cases h2 : u ∈ st.visited
      · rw [if_pos h2] at h
        cases h
        exact ⟨⟨[], by simp⟩, fun x hx => hx, h2, fun x _ hx => hx, hinv⟩
      rw [if_neg h2] at h
      cases hfold : visitFold (fun d s => visit reg utils fuel d (u :: visiting) s)
          ((depsOf reg u).filter (fun d => decide (d ∈ utils))) st with
      | error e => rw [hfold] at h; cases h
      | ok st1 =>
        rw [hfold] at h
        cases h
        obtain ⟨⟨r, hr⟩, hmono, hdsIn, hfresh, hinv1⟩ :=
          ihQ _ _ _ _ hfold
            (fun d hd => of_decide_eq_true (List.mem_filter.mp hd).2) hinv
        have hufresh : ¬ u ∈ st1.visited := fun hm =>
          h2 (hfresh u (List.mem_cons_self u visiting) hm)
        have hunotr : ¬ u ∈ st1.result := fun hm => hufresh ((hinv1.1 u).mpr hm)
        refine ⟨⟨r ++ [u], by rw [hr, List.append_assoc]⟩,
          fun x hx => List.mem_cons_of_mem _ (hmono x hx),
          List.mem_cons_self _ _,
          ?_, ?_, ?_, ?_, ?_⟩
        · intro x hxv hx'
          rcases List.mem_cons.mp hx' with rfl | hx1
          · exact absurd hxv h1
          · exact hfresh x (List.mem_cons_of_mem _ hxv) hx1
        · intro x
          constructor
          · intro hx
            rcases List.mem_cons.mp hx with rfl | hx1
            · simp
            · exact List.mem_append.mpr (Or.inl ((hinv1.1 x).mp hx1))
          · intro hx
            rcases List.mem_append.mp hx with hx1 | hx1
            · exact List.mem_cons_of_mem _ ((hinv1.1 x).mpr hx1)
            · simp only [List.mem_singleton] at hx1
              subst hx1
              exact List.mem_cons_self _ _
        · rw [List.nodup_append]
          exact ⟨hinv1.2.1, List.nodup_singleton u,
            fun a ha hb => by
              simp only [List.mem_singleton] at hb
              subst hb
              exact hunotr ha⟩
        · intro x hx
          rcases List.mem_append.mp hx with hx1 | hx1
          · exact hinv1.2.2.1 x hx1
          · simp only [List.mem_singleton] at hx1
            subst hx1
            exact hu
        · intro a ha b hb hbu
          rcases List.mem_append.mp ha with ha1 | ha1
          · obtain ⟨hbr, hlt⟩ := hinv1.2.2.2 a ha1 b hb hbu
            refine ⟨List.mem_append.mpr (Or.inl hbr), ?_⟩
            rw [idxOf_append_left _ hbr, idxOf_append_left _ ha1]
            exact hlt
          · simp only [List.mem_singleton] at ha1
            subst ha1
            have hbf : b ∈ (depsOf reg a).filter (fun d => decide (d ∈ utils)) :=
              List.mem_filter.mpr ⟨hb, decide_eq_true hbu⟩
            have hbv : b ∈ st1.visited := hdsIn b hbf
            have hbr : b ∈ st1.result := (hinv1.1 b).mp hbv
            refine ⟨List.mem_append.mpr (Or.inl hbr), ?_⟩
            rw [idxOf_append_left _ hbr, idxOf_append_right _ hunotr]
            have : idxOf a [a] = 0 := by simp [idxOf]
            rw [this]
            simpa using idxOf_lt_length hbr
    refine ⟨hP, ?_⟩
    intro ds
    induction ds with
    | nil =>
      intro visiting st st' h hds hinv
      simp only [visitFold, Except.ok.injEq] at h
      subst h
      exact ⟨⟨[], by simp⟩, fun x hx => hx, by simp, fun x _ hx => hx, hinv⟩
    | cons d ds' ihds =>
      intro visiting st st' h hds hinv
      rw [visitFold] at h
      cases hv : visit reg utils (Nat.succ fuel) d visiting st with
      | error e => rw [hv] at h; cases h
      | ok st1 =>
        rw [hv] at h
        obtain ⟨⟨r1, hr1⟩, hmono1, hdv, hfresh1, hinv1⟩ :=
          hP d visiting st st1 hv (hds d (List.mem_cons_self d ds')) hinv
        obtain ⟨⟨r2, hr2⟩, hmono2, hdsIn2, hfresh2, hinv2⟩ :=
          ihds visiting st1 st' h (fun x hx => hds x (List.mem_cons_of_mem _ hx)) hinv1
        refine ⟨⟨r1 ++ r2, by rw [hr2, hr1, List.append_assoc]⟩,
          fun x hx => hmono2 x (hmono1 x hx), ?_,
          fun x hxv hx' => hfresh1 x hxv (hfresh2 x hxv hx'), hinv2⟩
        intro e he
        rcases List.mem_cons.mp he with rfl | he1
        · exact hmono2 e hdv
        · exact hdsIn2 e he1

theorem sortLoop_ok (reg : Registry) (utils : List Str) (fuel : Nat) :
    ∀ us st st', sortLoop reg utils fuel us st = Except.ok st' →
      (∀ u, u ∈ us → u ∈ utils) → sortInv reg utils st →
      (∀ x, x ∈ st.visited → x ∈ st'.visited) ∧
      (∀ u, u ∈ us → u ∈ st'.visited) ∧
      sortInv reg utils st' := by
  intro us
  induction us with
  | nil =>
    intro st st' h _ hinv
    simp only [sortLoop, Except.ok.injEq] at h
    subst h
    exact ⟨fun x hx => hx, by simp, hinv⟩
  | cons u us' ihus =>
    intro st st' h hus hinv
    rw [sortLoop] at h
    cases hv : visit reg utils fuel u [] st with
    | error e => rw [hv] at h; cases h
    | ok st1 =>
      rw [hv] at h
      obtain ⟨_, hmono1, huv, _, hinv1⟩ :=
        ((visit_ok_all reg utils fuel).1) u [] st st1 hv
          (hus u (List.mem_cons_self u us')) hinv
      obtain ⟨hmono2, husIn, hinv2⟩ :=
        ihus st1 st' h (fun x hx => hus x (List.mem_cons_of_mem _ hx)) hinv1
      refine ⟨fun x hx => hmono2 x (hmono1 x hx), ?_, hinv2⟩
      intro e he
      rcases List.mem_cons.mp he with rfl | he1
      · exact hmono2 e huv
      · exact husIn e he1

/-- Success characterization of topologicalSort: the produced order has no
duplicates, consists exactly of the names of the input list, and places
every dependency that is itself in the input list strictly before its
dependent. -/
theorem topologicalSort_ok {reg : Registry} {utils order : List Str}
    (h : topologicalSort reg utils = Except.ok order) :
    order.Nodup ∧ (∀ x, x ∈ order ↔ x ∈ utils) ∧
    orderedByDeps reg utils order := by
  unfold topologicalSort at h
  cases hsl : sortLoop reg utils (utils.length + 1) (jsDedup utils) ⟨[], []⟩ with
  | error e => rw [hsl] at h; cases h
  | ok st =>
    rw [hsl] at h
    cases h
    have hinv0 : sortInv reg utils ⟨[], []⟩ := by
      refine ⟨by simp, List.nodup_nil, by simp, ?_⟩
      intro a ha
      cases ha
    obtain ⟨_, hallIn, hinv⟩ :=
      sortLoop_ok reg utils (utils.length + 1) (jsDedup utils) _ st hsl
        (fun u hu => mem_jsDedup.mp hu) hinv0
    refine ⟨hinv.2.1, ?_, hinv.2.2.2⟩
    intro x
    constructor
    · exact hinv.2.2.1 x
    · intro hx
      exact (hinv.1 x).mp (hallIn x (mem_jsDedup.mpr hx))

theorem chain_idx_lt {reg : Registry} {utils order : List Str}
    (hord : orderedByDeps reg utils order)
    (hmem : ∀ x, x ∈ order ↔ x ∈ utils) :
    ∀ (l : List Str) (a b : Str), List.Chain (dependsOn reg) a (l ++ [b]) →
      a ∈ order → (∀ x, x ∈ l → x ∈ order) → b ∈ order →
      idxOf b order < idxOf a order := by
  intro l
  induction l with
  | nil =>
    intro a b hch ha _ hb
    rw [List.nil_append, List.chain_cons] at hch
    exact (hord a ha b hch.1 ((hmem b).mp hb)).2
  | cons c l' ihl =>
    intro a b hch ha hl hb
    rw [List.cons_append, List.chain_cons] at hch
    have hc : c ∈ order := hl c (List.mem_cons_self c l')
    have h1 : idxOf c order < idxOf a order :=
      (hord a ha c hch.1 ((hmem c).mp hc)).2
    have h2 : idxOf b order < idxOf c order :=
      ihl c b hch.2 hc (fun x hx => hl x (List.mem_cons_of_mem _ hx)) hb
    exact lt_trans h2 h1

theorem no_cycle_of_sort_ok {reg : Registry} {utils order : List Str}
    (h : topologicalSort reg utils = Except.ok order) (w : Str)
    (hc : memberOfCycle reg utils w) : False := by
  obtain ⟨hnd, hmem, hord⟩ := topologicalSort_ok h
  obtain ⟨l, hw, hl, hch⟩ := hc
  have hwo : w ∈ order := (hmem w).mpr hw
  exact absurd
    (chain_idx_lt hord hmem l w w hch hwo
      (fun x hx => (hmem x).mpr (hl x hx)) hwo)
    (lt_irrefl _)

theorem length_le_of_nodup_subset {l m : List Str} (hn : l.Nodup)
    (hs : ∀ x, x ∈ l → x ∈ m) : l.length ≤ m.length := by
  calc l.length = l.toFinset.card := (List.toFinset_card_of_nodup hn).symm
    _ ≤ m.toFinset.card := by
        apply Finset.card_le_card
        intro x hx
        rw [List.mem_toFinset] at hx ⊢
        exact hs x hx
    _ ≤ m.length := List.toFinset_card_le m

theorem cycle_of_chain_mem {reg : Registry} {utils : List Str} {u : Str}
    {visiting : List Str}
    (hch : List.Chain' (fun a b => a ∈ depsOf reg b) (u :: visiting))
    (hm : u ∈ visiting) (hu : u ∈ utils)
    (hvu : ∀ x, x ∈ visiting → x ∈ utils) :
    memberOfCycle reg utils u := by
  obtain ⟨s, t, rfl⟩ := List.append_of_mem hm
  have hpre : (u :: (s ++ [u])) <+: (u :: (s ++ u :: t)) := by
    refine ⟨t, ?_⟩
    simp
  have hch2 : List.Chain' (fun a b => a ∈ depsOf reg b) (u :: (s ++ [u])) :=
    hch.prefix hpre
  have hrev : List.Chain' (flip (fun a b => a ∈ depsOf reg b))
      (u :: (s ++ [u])).reverse := by
    rw [List.chain'_reverse]
    simpa using hch2
  have hsh : (u :: (s ++ [u])).reverse = u :: (s.reverse ++ [u]) := by
    simp
  rw [hsh] at hrev
  have hchain : List.Chain (dependsOn reg) u (s.reverse ++ [u]) := hrev
  exact ⟨s.reverse, hu, fun x hx =>
    hvu x (List.mem_append.mpr (Or.inl (List.mem_reverse.mp hx))), hchain⟩

theorem visit_err_all (reg : Registry) (utils : List Str) : ∀ fuel : Nat,
    (∀ u visiting st e, visit reg utils fuel u visiting st = Except.error e →
      u ∈ utils → (∀ x, x ∈ visiting → x ∈ utils) →
      List.Chain' (fun a b => a ∈ depsOf reg b) (u :: visiting) →
      visiting.Nodup →
      utils.length < fuel + visiting.length →
      ∃ w, e = circularMsg w ∧ memberOfCycle reg utils w) ∧
    (∀ ds visiting st e,
      visitFold (fun d s => visit reg utils fuel d visiting s) ds st = Except.error e →
      (∀ d, d ∈ ds → d ∈ utils) →
      (∀ x, x ∈ visiting → x ∈ utils) →
      (∃ p rest, visiting = p :: rest ∧ ∀ d, d ∈ ds → d ∈ depsOf reg p) →
      List.Chain' (fun a b => a ∈ depsOf reg b) visiting →
      visiting.Nodup →
      utils.length < fuel + visiting.length →
      ∃ w, e = circularMsg w ∧ memberOfCycle reg utils w) := by
  intro fuel
  induction fuel with
  | zero =>
    constructor
    · intro u visiting st e _ _ hvu _ hnd hbound
      have := length_le_of_nodup_subset hnd hvu
      omega
    · intro ds visiting st e h hds hvu hlink hch hnd hbound
      cases ds with
      | nil => cases h
      | cons d ds' =>
        rw [visitFold, visit] at h
        have := length_le_of_nodup_subset hnd hvu
        omega
  | succ fuel ih =>
    have ihQ := ih.2
    have hP : ∀ u visiting st e,
        visit reg utils (Nat.succ fuel) u visiting st = Except.error e →
        u ∈ utils → (∀ x, x ∈ visiting → x ∈ utils) →
        List.Chain' (fun a b => a ∈ depsOf reg b) (u :: visiting) →
        visiting.Nodup →
        utils.length < Nat.succ fuel + visiting.length →
        ∃ w, e = circularMsg w ∧ memberOfCycle reg utils w := by
      intro u visiting st e h hu hvu hch hnd hbound
      rw [visit] at h
      by_cases h1 : u ∈ visiting
      · rw [if_pos h1] at h
        cases h
        exact ⟨u, rfl, cycle_of_chain_mem hch h1 hu hvu⟩
      rw [if_neg h1] at h
      by_cases h2 : u ∈ st.visited
      · rw [if_pos h2] at h
        cases h
      rw [if_neg h2] at h
      cases hfold : visitFold (fun d s => visit reg utils fuel d (u :: visiting) s)
          ((depsOf reg u).filter (fun d => decide (d ∈ utils))) st with
      | error e1 =>
        rw [hfold] at h
        cases h
        refine ihQ _ _ _ _ hfold
          (fun d hd => of_decide_eq_true (List.mem_filter.mp hd).2)
          (fun x hx => ?_)
          ⟨u, visiting, rfl, fun d hd => (List.mem_filter.mp hd).1⟩
          hch (List.nodup_cons.mpr ⟨h1, hnd⟩)
          (by simp only [List.length_cons]; omega)
        rcases List.mem_cons.mp hx with rfl | hx1
        · exact hu
        · exact hvu x hx1
      | ok st1 =>
        rw [hfold] at h
        cases h
    refine ⟨hP, ?_⟩
    intro ds
    induction ds with
    | nil =>
      intro visiting st e h
      cases h
    | cons d ds' ihds =>
      intro visiting st e h hds hvu hlink hch hnd hbound
      rw [visitFold] at h
      obtain ⟨p, rest, rfl, hdep⟩ := hlink
      cases hv : visit reg utils (Nat.succ fuel) d (p :: rest) st with
      | error e1 =>
        rw [hv] at h
        cases h
        refine hP d (p :: rest) st _ hv (hds d (List.mem_cons_self d ds')) hvu ?_ hnd hbound
        rw [List.chain'_cons]
        exact ⟨hdep d (List.mem_cons_self d ds'), hch⟩
      | ok st1 =>
        rw [hv] at h
        exact ihds (p :: rest) st1 e h
          (fun x hx => hds x (List.mem_cons_of_mem _ hx)) hvu
          ⟨p, rest, rfl, fun x hx => hdep x (List.mem_cons_of_mem _ hx)⟩
          hch hnd hbound

theorem sortLoop_err (reg : Registry) (utils : List Str) (fuel : Nat) :
    ∀ us st e, sortLoop reg utils fuel us st = Except.error e →
      (∀ u, u ∈ us → u ∈ utils) → utils.length < fuel →
      ∃ w, e = circularMsg w ∧ memberOfCycle reg utils w := by
  intro us
  induction us with
  | nil =>
    intro st e h
    cases h
  | cons u us' ihus =>
    intro st e h hus hbound
    rw [sortLoop] at h
    cases hv : visit reg utils fuel u [] st with
    | error e1 =>
      rw [hv] at h
      cases h
      exact (visit_err_all reg utils fuel).1 u [] st _ hv
        (hus u (List.mem_cons_self u us')) (by simp)
        (List.chain'_singleton u) List.nodup_nil (by simpa using hbound)
    | ok st1 =>
      rw [hv] at h
      exact ihus st1 e h (fun x hx => hus x (List.mem_cons_of_mem _ hx)) hbound

/-- Failure characterization of topologicalSort: every error it returns is
the circular-dependency message for a name that really lies on a dependency
cycle inside the input name set. -/
theorem topologicalSort_error {reg : Registry} {utils : List Str} {e : Str}
    (h : topologicalSort reg utils = Except.error e) :
    ∃ w, e = circularMsg w ∧ memberOfCycle reg utils w := by
  unfold topologicalSort at h
  cases hsl : sortLoop reg utils (utils.length + 1) (jsDedup utils) ⟨[], []⟩ with
  | error e1 =>
    rw [hsl] at h
    cases h
    exact sortLoop_err reg utils (utils.length + 1) (jsDedup utils) _ _ hsl
      (fun u hu => mem_jsDedup.mp hu) (by omega)
  | ok st =>
    rw [hsl] at h
    cases h

/-- Detection: any dependency cycle inside the input set makes
topologicalSort fail, and the error names a member of a cycle. -/
theorem topologicalSort_cycle_detect {reg : Registry} {utils : List Str}
    {w0 : Str} (hc : memberOfCycle reg utils w0) :
    ∃ w, topologicalSort reg utils = Except.error (circularMsg w) ∧
      memberOfCycle reg utils w := by
  cases hts : topologicalSort reg utils with
  | error e =>
    obtain ⟨w, rfl, hw⟩ := topologicalSort_error hts
    exact ⟨w, rfl, hw⟩
  | ok order =>
    exact absurd hts (fun h => no_cycle_of_sort_ok h w0 hc)

theorem name_mem_of_findUtility {reg : Registry} {x : Str}
    (h : (findUtility reg x).isSome) :
    x ∈ reg.utilities.map (fun u => u.name) := by
  unfold findUtility at h
  cases hf : reg.utilities.find? (fun u => decide (u.name = x)) with
  | none => rw [hf] at h; cases h
  | some u =>
    have hm := List.mem_of_find?_eq_some hf
    have hp := List.find?_some hf
    have : u.name = x := of_decide_eq_true hp
    exact List.mem_map.mpr ⟨u, hm, this⟩

theorem visited_length_le {reg : Registry} {l : List Str} (hn : l.Nodup)
    (hv : ∀ x, x ∈ l → (findUtility reg x).isSome) :
    l.length ≤ reg.utilities.length := by
  have := length_le_of_nodup_subset (m := reg.utilities.map (fun u => u.name)) hn
    (fun x hx => name_mem_of_findUtility (hv x hx))
  simpa using this

theorem collect_ok_all (reg : Registry) (noDeps : Bool)
    (hInt : registryIntegrity reg) : ∀ fuel : Nat,
    (∀ name st, ((findUtility reg name).isSome ∨ name ∈ st.visited) →
      st.visited.Nodup → (∀ x, x ∈ st.visited → (findUtility reg x).isSome) →
      reg.utilities.length < fuel + st.visited.length →
      ∃ res st', collect reg noDeps fuel name st = Except.ok (res, st') ∧
        (∃ ext, st'.visited = st.visited ++ ext) ∧ st'.visited.Nodup ∧
        (∀ x, x ∈ st'.visited → (findUtility reg x).isSome)) ∧
    (∀ ds acc st, (∀ d, d ∈ ds → (findUtility reg d).isSome) →
      st.visited.Nodup → (∀ x, x ∈ st.visited → (findUtility reg x).isSome) →
      reg.utilities.length < fuel + st.visited.length →
      ∃ res st', collectFold (fun d s => collect reg noDeps fuel d s) ds acc st =
          Except.ok (res, st') ∧
        (∃ ext, st'.visited = st.visited ++ ext) ∧ st'.visited.Nodup ∧
        (∀ x, x ∈ st'.visited → (findUtility reg x).isSome)) := by
  intro fuel
  induction fuel with
  | zero =>
    constructor
    · intro name st _ hnd hv hbound
      have := visited_length_le hnd hv
      omega
    · intro ds acc st _ hnd hv hbound
      have := visited_length_le hnd hv
      omega
  | succ fuel ih =>
    have ihQ := ih.2
    have hP : ∀ name st, ((findUtility reg name).isSome ∨ name ∈ st.visited) →
        st.visited.Nodup → (∀ x, x ∈ st.visited → (findUtility reg x).isSome) →
        reg.utilities.length < Nat.succ fuel + st.visited.length →
        ∃ res st', collect reg noDeps (Nat.succ fuel) name st = Except.ok (res, st') ∧
          (∃ ext, st'.visited = st.visited ++ ext) ∧ st'.visited.Nodup ∧
          (∀ x, x ∈ st'.visited → (findUtility reg x).isSome) := by
      intro name st hname hnd hv hbound
      by_cases h1 : name ∈ st.visited
      · exact ⟨[], st, by rw [collect, if_pos h1], ⟨[], by simp⟩, hnd, hv⟩
      have hsome : (findUtility reg name).isSome := by
        rcases hname with h | h
        · exact h
        · exact absurd h h1
      cases hfu : findUtility reg name with
      | none => rw [hfu] at hsome; cases hsome
      | some u =>
        have hnd1 : (st.visited ++ [name]).Nodup := by
          rw [List.nodup_append]
          exact ⟨hnd, List.nodup_singleton name,
            fun a ha hb => by
              simp only [List.mem_singleton] at hb
              subst hb
              exact h1 ha⟩
        have hv1 : ∀ x, x ∈ st.visited ++ [name] → (findUtility reg x).isSome := by
          intro x hx
          rcases List.mem_append.mp hx with hx1 | hx1
          · exact hv x hx1
          · simp only [List.mem_singleton] at hx1
            subst hx1
            exact hsome
        have humem : u ∈ reg.utilities := by
          have := List.mem_of_find?_eq_some hfu
          exact this
        cases noDeps with
        | true =>
          refine ⟨jsUnion [] u.dependencies,
            ⟨st.visited ++ [name],
              st.depMap ++ [(name, jsUnion [] u.dependencies)]⟩,
            ?_, ⟨[name], rfl⟩, hnd1, hv1⟩
          rw [collect, if_neg h1]
          simp [hfu]
        | false =>
          obtain ⟨res, st2, hfold, ⟨ext, hext⟩, hnd2', hv2⟩ :=
            ihQ u.dependencies (jsUnion [] u.dependencies)
              ⟨st.visited ++ [name], st.depMap⟩
              (fun d hd => hInt u humem d hd) hnd1 hv1
              (by simp only [List.length_append, List.length_singleton]; omega)
          refine ⟨res, ⟨st2.visited, st2.depMap ++ [(name, res)]⟩, ?_,
            ⟨[name] ++ ext, by simp [hext]⟩, hnd2', hv2⟩
          rw [collect, if_neg h1]
          simp [hfu, hfold]
    refine ⟨hP, ?_⟩
    intro ds
    induction ds with
    | nil =>
      intro acc st _ hnd hv _
      exact ⟨acc, st, rfl, ⟨[], by simp⟩, hnd, hv⟩
    | cons d ds' ihds =>
      intro acc st hds hnd hv hbound
      obtain ⟨res1, st1, hc1, ⟨ext1, hext1⟩, hnd1, hv1⟩ :=
        hP d st (Or.inl (hds d (List.mem_cons_self d ds'))) hnd hv hbound
      obtain ⟨res2, st2, hc2, ⟨ext2, hext2⟩, hnd2, hv2⟩ :=
        ihds (jsUnion acc res1) st1
          (fun x hx => hds x (List.mem_cons_of_mem _ hx)) hnd1 hv1
          (by rw [hext1]; simp only [List.length_append]; omega)
      refine ⟨res2, st2, ?_, ⟨ext1 ++ ext2, by rw [hext2, hext1, List.append_assoc]⟩,
        hnd2, hv2⟩
      simp only [collectFold, hc1]
      exact hc2

theorem resolveLoop_ok_of_valid (reg : Registry) (noDeps : Bool) (fuel : Nat)
    (hInt : registryIntegrity reg) :
    ∀ ns acc st, (∀ n, n ∈ ns → (findUtility reg n).isSome) →
      st.visited.Nodup → (∀ x, x ∈ st.visited → (findUtility reg x).isSome) →
      reg.utilities.length < fuel + st.visited.length →
      ∃ res st', resolveLoop reg noDeps fuel ns acc st = Except.ok (res, st') := by
  intro ns
  induction ns with
  | nil =>
    intro acc st _ _ _ _
    exact ⟨acc, st, rfl⟩
  | cons n ns' ihns =>
    intro acc st hns hnd hv hbound
    obtain ⟨res1, st1, hc1, ⟨ext1, hext1⟩, hnd1, hv1⟩ :=
      (collect_ok_all reg noDeps hInt fuel).1 n st
        (Or.inl (hns n (List.mem_cons_self n ns'))) hnd hv hbound
    obtain ⟨res2, st2, hc2⟩ :=
      ihns (jsUnion acc res1) st1
        (fun x hx => hns x (List.mem_cons_of_mem _ hx)) hnd1 hv1
        (by rw [hext1]; simp only [List.length_append]; omega)
    refine ⟨res2, st2, ?_⟩
    simp only [resolveLoop, hc1]
    exact hc2

theorem resolveDependencies_ok_elim {reg : Registry} {names : List Str}
    {noDeps : Bool} {order : List Str} {m : List (Str × List Str)}
    (h : resolveDependencies reg names noDeps = Except.ok (order, m)) :
    ∃ allDeps, topologicalSort reg (allDeps ++ names) = Except.ok order := by
  simp only [resolveDependencies] at h
  cases hrl : resolveLoop reg noDeps (reg.utilities.length + names.length + 2)
      names [] ⟨[], []⟩ with
  | error e => rw [hrl] at h; cases h
  | ok p =>
    obtain ⟨allDeps1, st1⟩ := p
    rw [hrl] at h
    dsimp only at h
    cases hts : topologicalSort reg (allDeps1 ++ names) with
    | error e =>
      rw [hts] at h
      cases h
    | ok order1 =>
      rw [hts] at h
      cases h
      exact ⟨allDeps1, hts⟩

theorem resolveDependencies_err_of_tsort {reg : Registry} {names : List Str}
    {noDeps : Bool} {allDeps : List Str} {st : CollectState} {e : Str}
    (hrl : resolveLoop reg noDeps (reg.utilities.length + names.length + 2)
      names [] ⟨[], []⟩ = Except.ok (allDeps, st))
    (hts : topologicalSort reg (allDeps ++ names) = Except.error e) :
    resolveDependencies reg names noDeps = Except.error e := by
  simp only [resolveDependencies]
  rw [hrl]
  dsimp only
  rw [hts]

theorem installUtility_utility (env : InstallEnv) (u : UtilityMeta)
    (cfg : ProjectConfig) (opts : AddOptions) (fs : FS) :
    ((installUtility env u cfg opts fs).2).utility = some u := by
  unfold installUtility
  dsimp only
  split <;> split <;> (first | rfl | (split <;> rfl))

theorem installLoop_utilities (env : InstallEnv) (reg : Registry)
    (cfg : ProjectConfig) (opts : AddOptions) (valid : List Str) :
    ∀ ns fs, ((installLoop env reg cfg opts valid ns fs).2).map
        (fun r => r.utility) = ns.map (fun n => findUtility reg n) := by
  intro ns
  induction ns with
  | nil => intro fs; rfl
  | cons n ns' ih =>
    intro fs
    cases hfu : findUtility reg n with
    | some u =>
      simp only [installLoop, hfu, List.map_cons]
      rw [installUtility_utility]
      exact congrArg _ (ih _)
    | none =>
      simp only [installLoop, hfu, List.map_cons]
      exact congrArg _ (ih _)

theorem installLoop_marks (env : InstallEnv) (reg : Registry)
    (cfg : ProjectConfig) (opts : AddOptions) (valid : List Str) :
    ∀ ns fs, ((installLoop env reg cfg opts valid ns fs).2).map
        (fun r => r.isDependency) =
      ns.map (fun n => some (decide (¬ n ∈ valid))) := by
  intro ns
  induction ns with
  | nil => intro fs; rfl
  | cons n ns' ih =>
    intro fs
    cases hfu : findUtility reg n with
    | some u =>
      simp only [installLoop, hfu, List.map_cons]
      exact congrArg _ (ih _)
    | none =>
      simp only [installLoop, hfu, List.map_cons]
      exact congrArg _ (ih _)

theorem installLoop_length (env : InstallEnv) (reg : Registry)
    (cfg : ProjectConfig) (opts : AddOptions) (valid : List Str)
    (ns : List Str) (fs : FS) :
    ((installLoop env reg cfg opts valid ns fs).2).length = ns.length := by
  have h := installLoop_utilities env reg cfg opts valid ns fs
  have := congrArg List.length h
  simpa using this

theorem flatMap_id_of {f : Str → List Str} :
    ∀ l : List Str, (∀ n, n ∈ l → f n = [n]) → l.flatMap f = l := by
  intro l
  induction l with
  | nil => intro _; rfl
  | cons a t ih =>
    intro h
    rw [List.flatMap_cons, h a (List.mem_cons_self a t),
      ih (fun n hn => h n (List.mem_cons_of_mem _ hn))]
    rfl

theorem searchLe_iff {lq : Str} {a b : UtilityMeta} :
    searchLe lq a b = true ↔
      (searchRank lq a < searchRank lq b ∨
        (searchRank lq a = searchRank lq b ∧ a.name ≤ b.name)) := by
  unfold searchLe
  exact decide_eq_true_iff

theorem searchLe_trans (lq : Str) : ∀ a b c : UtilityMeta,
    searchLe lq a b = true → searchLe lq b c = true →
    searchLe lq a c = true := by
  intro a b c hab hbc
  rw [searchLe_iff] at hab hbc ⊢
  rcases hab with h1 | ⟨h1, h1n⟩
  · rcases hbc with h2 | ⟨h2, _⟩
    · exact Or.inl (lt_trans h1 h2)
    · exact Or.inl (lt_of_lt_of_eq h1 h2)
  · rcases hbc with h2 | ⟨h2, h2n⟩
    · exact Or.inl (lt_of_eq_of_lt h1 h2)
    · exact Or.inr ⟨h1.trans h2, le_trans h1n h2n⟩

theorem searchLe_total (lq : Str) : ∀ a b : UtilityMeta,
    (searchLe lq a b || searchLe lq b a) = true := by
  intro a b
  rw [Bool.or_eq_true]
  rcases lt_trichotomy (searchRank lq a) (searchRank lq b) with h | h | h
  · exact Or.inl (searchLe_iff.mpr (Or.inl h))
  · rcases le_total a.name b.name with hn | hn
    · exact Or.inl (searchLe_iff.mpr (Or.inr ⟨h, hn⟩))
    · exact Or.inr (searchLe_iff.mpr (Or.inr ⟨h.symm, hn⟩))
  · exact Or.inr (searchLe_iff.mpr (Or.inl h))

/-- C1: whenever dependency resolution returns an installOrder (topological
sorting succeeded, that is, no circular dependency was detected among the
resolved set), the order is a sequence of unique names, and for every edge
A depends on B with both A and B in the order, the index of B is strictly
less than the index of A. -/
theorem claim_C1_install_order_sound (reg : Registry) (names : List Str)
    (noDeps : Bool) (order : List Str) (m : List (Str × List Str))
    (h : resolveDependencies reg names noDeps = Except.ok (order, m)) :
    order.Nodup ∧
    ∀ a b, a ∈ order → b ∈ order → b ∈ depsOf reg a →
      idxOf b order < idxOf a order := by
  obtain ⟨allDeps, hts⟩ := resolveDependencies_ok_elim h
  obtain ⟨hnd, hmem, hord⟩ := topologicalSort_ok hts
  exact ⟨hnd, fun a b ha hb hdep => (hord a ha b hdep ((hmem b).mp hb)).2⟩

/-- Witness for C1 on the concrete chain registry A, B requires A, C
requires B, with the single request C. -/
theorem claim_C1_install_order_sound_witness :
    ([str "A", str "B", str "C"] : List Str).Nodup ∧
    ∀ a b, a ∈ [str "A", str "B", str "C"] → b ∈ [str "A", str "B", str "C"] →
      b ∈ depsOf regABC a →
      idxOf b [str "A", str "B", str "C"] < idxOf a [str "A", str "B", str "C"] :=
  claim_C1_install_order_sound regABC [str "C"] false
    [str "A", str "B", str "C"]
    [(str "A", []), (str "B", [str "A"]), (str "C", [str "B", str "A"])] rfl

/-- C3: dependency cycles are detected.  First, for an integral registry and
validated request the collection phase never fails, so resolution reaches
the topological sort.  Second, whenever the collection phase produced the
dependency set and a cycle lies inside the resolved set (collected
dependencies plus requested names), resolution fails with the
circular-dependency message naming a name that really lies on such a cycle.
Third, any resolution failure makes add return with the filesystem
untouched and an empty result list, so no utility is installed and no
partial order is exposed. -/
theorem claim_C3_cycle_failure :
    (∀ (reg : Registry) (names : List Str) (noDeps : Bool),
      registryIntegrity reg →
      (∀ n, n ∈ names → (findUtility reg n).isSome) →
      ∃ res st, resolveLoop reg noDeps
        (reg.utilities.length + names.length + 2) names [] ⟨[], []⟩ =
        Except.ok (res, st)) ∧
    (∀ (reg : Registry) (names : List Str) (noDeps : Bool)
      (allDeps : List Str) (st : CollectState) (w0 : Str),
      resolveLoop reg noDeps (reg.utilities.length + names.length + 2)
        names [] ⟨[], []⟩ = Except.ok (allDeps, st) →
      memberOfCycle reg (allDeps ++ names) w0 →
      ∃ w, resolveDependencies reg names noDeps =
          Except.error (circularMsg w) ∧
        memberOfCycle reg (allDeps ++ names) w) ∧
    (∀ (env : InstallEnv) (reg : Registry) (config? : Option ProjectConfig)
      (names : List Str) (opts : AddOptions) (fs : FS) (e : Str),
      resolveDependencies reg
        (validateUtilities reg (expandCategoryNames reg names)).1
        opts.noDeps = Except.error e →
      add env reg config? names opts fs = (fs, [])) := by
  refine ⟨?_, ?_, ?_⟩
  · intro reg names noDeps hInt hValid
    exact resolveLoop_ok_of_valid reg noDeps
      (reg.utilities.length + names.length + 2) hInt names [] ⟨[], []⟩
      hValid List.nodup_nil (by intro x hx; cases hx) (by simp; omega)
  · intro reg names noDeps allDeps st w0 hrl hcyc
    obtain ⟨w, hts, hw⟩ := topologicalSort_cycle_detect hcyc
    exact ⟨w, resolveDependencies_err_of_tsort hrl hts, hw⟩
  · intro env reg config? names opts fs e hres
    simp only [add]
    by_cases hinv : (validateUtilities reg (expandCategoryNames reg names)).2 = []
    · rw [if_neg (by simp [hinv])]
      cases config? with
      | none => rfl
      | some config =>
        rw [hres]
    · rw [if_pos (by simpa using hinv)]

/-- Witness for C3 on the two-element cycle registry X requires Y and Y
requires X, requesting both. -/
theorem claim_C3_cycle_failure_witness :
    (∃ res st, resolveLoop regXY false
        (regXY.utilities.length + [str "X", str "Y"].length + 2)
        [str "X", str "Y"] [] ⟨[], []⟩ = Except.ok (res, st)) ∧
    (∃ w, resolveDependencies regXY [str "X", str "Y"] false =
        Except.error (circularMsg w) ∧
      memberOfCycle regXY ([str "Y", str "X"] ++ [str "X", str "Y"]) w) ∧
    add envT regXY (some cfgT) [str "X", str "Y"] ⟨false, false⟩ [] =
      ([], []) := by
  refine ⟨?_, ?_, ?_⟩
  · exact claim_C3_cycle_failure.1 regXY [str "X", str "Y"] false
      (by unfold registryIntegrity; decide) (by decide)
  · exact claim_C3_cycle_failure.2.1 regXY [str "X", str "Y"] false
      [str "Y", str "X"] ⟨[str "X", str "Y"],
        [(str "Y", [str "X"]), (str "X", [str "Y", str "X"])]⟩ (str "X") rfl
      ⟨[str "Y"], by decide, by decide,
        List.Chain.cons (show dependsOn regXY (str "X") (str "Y") by decide)
          (List.Chain.cons (show dependsOn regXY (str "Y") (str "X") by decide)
            List.Chain.nil)⟩
  · exact claim_C3_cycle_failure.2.2 envT regXY (some cfgT)
      [str "X", str "Y"] ⟨false, false⟩ [] (circularMsg (str "Y")) rfl

/-- C4: on the registry A (no dependencies), B (requires A), C (requires B),
adding the single request C installs in the order A, B, C with A and B
marked as dependencies and C as primary; and in general every result of the
installation loop is marked as a dependency exactly when its name is not
among the validated originally requested names (membership, not
position). -/
theorem claim_C4_concrete_chain :
    (resolveDependencies regABC [str "C"] false =
      Except.ok ([str "A", str "B", str "C"],
        [(str "A", []), (str "B", [str "A"]), (str "C", [str "B", str "A"])])) ∧
    (((add envT regABC (some cfgT) [str "C"] ⟨false, false⟩ []).2).map
      (fun r => (r.utility.map (fun u => u.name), r.isDependency)) =
      [(some (str "A"), some true), (some (str "B"), some true),
       (some (str "C"), some false)]) ∧
    (∀ env reg cfg opts valid ns fs,
      ((installLoop env reg cfg opts valid ns fs).2).map
          (fun r => r.isDependency) =
        ns.map (fun n => some (decide (¬ n ∈ valid)))) := by
  refine ⟨rfl, rfl, ?_⟩
  intro env reg cfg opts valid ns fs
  exact installLoop_marks env reg cfg opts valid ns fs

/-- C5: the installation loop gives every name of the resolved order its
own InstallationResult, in order, regardless of per-item outcomes; at the
add level, a successful resolution yields exactly one result per member of
the installOrder; and concretely a utility whose source content is missing
is recorded as failed without stopping installation of the remaining
utilities. -/
theorem claim_C5_per_item_isolation :
    (∀ env reg cfg opts valid ns fs,
      ((installLoop env reg cfg opts valid ns fs).2).length = ns.length ∧
      ((installLoop env reg cfg opts valid ns fs).2).map (fun r => r.utility) =
        ns.map (fun n => findUtility reg n)) ∧
    (∀ env reg cfg names opts fs order m,
      (validateUtilities reg (expandCategoryNames reg names)).2 = [] →
      resolveDependencies reg
        (validateUtilities reg (expandCategoryNames reg names)).1
        opts.noDeps = Except.ok (order, m) →
      ((add env reg (some cfg) names opts fs).2).length = order.length) ∧
    (((add ⟨fun u => if u.name = str "B" then none else some (str "x"),
        id, id, fun _ => false⟩ regABC (some cfgT) [str "C"]
        ⟨false, false⟩ []).2).map (fun r => r.status) =
      [InstallStatus.installed, InstallStatus.failed,
        InstallStatus.installed]) := by
  refine ⟨?_, ?_, rfl⟩
  · intro env reg cfg opts valid ns fs
    exact ⟨installLoop_length env reg cfg opts valid ns fs,
      installLoop_utilities env reg cfg opts valid ns fs⟩
  · intro env reg cfg names opts fs order m hinv hres
    simp only [add]
    rw [if_neg (by simp [hinv]), hres]
    exact installLoop_length env reg cfg opts _ order fs

/-- Witness for C5 at the concrete chain registry: the add pipeline yields
one result per member of the resolved order A, B, C. -/
theorem claim_C5_per_item_isolation_witness :
    ((add envT regABC (some cfgT) [str "C"] ⟨false, false⟩ []).2).length =
      ([str "A", str "B", str "C"] : List Str).length :=
  claim_C5_per_item_isolation.2.1 envT regABC cfgT [str "C"] ⟨false, false⟩ []
    [str "A", str "B", str "C"]
    [(str "A", []), (str "B", [str "A"]), (str "C", [str "B", str "A"])]
    rfl rfl

/-- C2: evaluation of installUtility at the failing input.  The target file
does not exist beforehand (first conjunct), source content is available and
the overwrite option is set, yet the returned status is overwritten, where
the claim (and the surrounding summary output of the source) requires
installed for a first-time write.  The cause is line 303 of
src/unnamed/part_002, which tests the existence of the target after the
write, so the test is vacuously true and the status degenerates to
overwrite-flag-set. -/
theorem claim_C2_status_after_write_bug :
    pathExists ([] : FS)
      (pathJoin (pathJoin cfgT.rootPath cfgT.directory)
        (replaceJsTsExt uA.file (str ".ts"))) = false ∧
    (installUtility envT uA cfgT ⟨true, false⟩ []).2.status =
      InstallStatus.overwritten ∧
    (installUtility envT uA cfgT ⟨false, false⟩ []).2.status =
      InstallStatus.installed := by
  exact ⟨rfl, rfl, rfl⟩

/-- C6 counterexample: the registry file name of the utility is u.js, the
project is currently typed so removal looks only for u.ts, while the
untyped variant u.js exists on disk.  The claim demands that either variant
be found and removed; the code reports not_installed and deletes
nothing. -/
theorem claim_C6_counterexample :
    pathExists fsUntyped
      (pathJoin (pathJoin cfgT.rootPath cfgT.directory)
        (replaceTsWithJs uJs.file)) = true ∧
    (removeUtility uJs cfgT fsUntyped).2.status =
      RemovalStatus.not_installed ∧
    (removeUtility uJs cfgT fsUntyped).1 = fsUntyped := by
  exact ⟨rfl, rfl, rfl⟩

/-- C6 amended: the uninstaller locates the installed file using only the
extension variant selected by the current project mode (typed gives the
.ts name, untyped the .js name); it returns not_installed exactly when
that single path is absent, and otherwise deletes that file and returns
removed. -/
theorem claim_C6_single_variant_removal (u : UtilityMeta)
    (cfg : ProjectConfig) (fs : FS) :
    (pathExists fs (pathJoin (pathJoin cfg.rootPath cfg.directory)
        (if cfg.typescript then replaceJsWithTs u.file
         else replaceTsWithJs u.file)) = false →
      removeUtility u cfg fs =
        (fs, ⟨u, RemovalStatus.not_installed, some (str "File not found"), none⟩)) ∧
    (pathExists fs (pathJoin (pathJoin cfg.rootPath cfg.directory)
        (if cfg.typescript then replaceJsWithTs u.file
         else replaceTsWithJs u.file)) = true →
      removeUtility u cfg fs =
        (removeFile fs (pathJoin (pathJoin cfg.rootPath cfg.directory)
            (if cfg.typescript then replaceJsWithTs u.file
             else replaceTsWithJs u.file)),
          ⟨u, RemovalStatus.removed, none,
            some (pathJoin (pathJoin cfg.rootPath cfg.directory)
              (if cfg.typescript then replaceJsWithTs u.file
               else replaceTsWithJs u.file))⟩)) := by
  constructor
  · intro h
    unfold removeUtility
    rw [if_pos (by simp [h])]
  · intro h
    unfold removeUtility
    rw [if_neg (by simp [h])]

/-- Witness for the amended C6 on an untyped project where the single
selected variant exists and is removed. -/
theorem claim_C6_single_variant_removal_witness :
    removeUtility uJs cfgF fsUntyped =
      ([], ⟨uJs, RemovalStatus.removed, none,
        some (pathJoin (pathJoin cfgF.rootPath cfgF.directory)
          (if cfgF.typescript then replaceJsWithTs uJs.file
           else replaceTsWithJs uJs.file))⟩) :=
  (claim_C6_single_variant_removal uJs cfgF fsUntyped).2 rfl

/-- C7 counterexample: in the registry with utility a of category X and
utility b of category a, the name a is simultaneously a utility name and a
category tag.  Resolving the request X (a category) yields the order a,
while resolving the explicit utility list of category X, namely a, expands
a as a category again and yields the order b: category expansion is not
idempotent. -/
theorem claim_C7_counterexample :
    namesOfCategory regClash (str "X") = [str "a"] ∧
    resolveDependencies regClash
      (validateUtilities regClash (expandCategoryNames regClash [str "X"])).1
      false = Except.ok ([str "a"], [(str "a", [])]) ∧
    resolveDependencies regClash
      (validateUtilities regClash (expandCategoryNames regClash [str "a"])).1
      false = Except.ok ([str "b"], [(str "b", [])]) ∧
    ¬ ([str "a"] : List Str) = [str "b"] := by
  exact ⟨rfl, rfl, rfl, by decide⟩

/-- C7 amended: provided the requested name is a category tag and no
utility name inside that category is itself a category tag of some
utility, resolving the single category request and resolving the explicit
name list of the category expand to the same list and therefore yield the
same installOrder. -/
theorem claim_C7_expansion_idempotent (reg : Registry) (x : Str)
    (hx : x ∈ reg.utilities.map (fun u => u.category))
    (hnc : ∀ n, n ∈ namesOfCategory reg x →
      ¬ n ∈ reg.utilities.map (fun u => u.category)) :
    expandCategoryNames reg [x] = namesOfCategory reg x ∧
    expandCategoryNames reg (namesOfCategory reg x) = namesOfCategory reg x ∧
    ∀ noDeps, resolveDependencies reg
        (validateUtilities reg (expandCategoryNames reg [x])).1 noDeps =
      resolveDependencies reg
        (validateUtilities reg
          (expandCategoryNames reg (namesOfCategory reg x))).1 noDeps := by
  have hxc : x ∈ jsDedup (reg.utilities.map (fun u => u.category)) :=
    mem_jsDedup.mpr hx
  have h1 : expandCategoryNames reg [x] = namesOfCategory reg x := by
    unfold expandCategoryNames
    rw [if_neg (by simp)]
    simp only [List.flatMap_cons, List.flatMap_nil, List.append_nil]
    rw [if_pos hxc]
    rfl
  have hne : ¬ namesOfCategory reg x = [] := by
    obtain ⟨u, hu, hcat⟩ := List.mem_map.mp hx
    intro hemp
    have : u.name ∈ namesOfCategory reg x := by
      unfold namesOfCategory
      exact List.mem_map.mpr ⟨u, List.mem_filter.mpr ⟨hu, decide_eq_true hcat⟩, rfl⟩
    rw [hemp] at this
    cases this
  have h2 : expandCategoryNames reg (namesOfCategory reg x) =
      namesOfCategory reg x := by
    unfold expandCategoryNames
    rw [if_neg hne]
    exact flatMap_id_of _ (fun n hn => by
      rw [if_neg (fun hmem => hnc n hn (mem_jsDedup.mp hmem))])
  exact ⟨h1, h2, fun noDeps => by rw [h1, h2]⟩

/-- Witness for the amended C7 on the chain registry, whose single
category misc contains utilities A, B, C none of which is a category
tag. -/
theorem claim_C7_expansion_idempotent_witness :
    expandCategoryNames regABC [str "misc"] =
      namesOfCategory regABC (str "misc") ∧
    expandCategoryNames regABC (namesOfCategory regABC (str "misc")) =
      namesOfCategory regABC (str "misc") ∧
    ∀ noDeps, resolveDependencies regABC
        (validateUtilities regABC (expandCategoryNames regABC [str "misc"])).1
        noDeps =
      resolveDependencies regABC
        (validateUtilities regABC
          (expandCategoryNames regABC (namesOfCategory regABC (str "misc")))).1
        noDeps :=
  claim_C7_expansion_idempotent regABC (str "misc") (by decide) (by decide)

/-- C8: first-match-wins precedence of the project config locator.  The
new-format file wins when present and parseable; otherwise the legacy file
with typed mode forced true; otherwise the mere existence of the default
lib/utils directory with the mode supplied by the typed-project heuristic;
otherwise the locator reports not initialised, and both the add and the
remove commands then return with the filesystem untouched and no
results.  The heuristic itself holds exactly when one of the four
indicator paths exists or a parseable package.json declares one of the
typed-language packages. -/
theorem claim_C8_config_precedence (w : ProjectWorld) :
    (∀ c, w.newConfigExists = true → w.newConfig = some c →
      getProjectConfig w = some ⟨(c.typescript).getD false,
        strOrDefault c.directory (str "lib/utils"), w.cwd⟩) ∧
    (∀ c, w.newConfigExists = false → w.oldConfigExists = true →
      w.oldConfig = some c →
      getProjectConfig w =
        some ⟨true, strOrDefault c.utilsPath (str "lib/utils"), w.cwd⟩) ∧
    (w.newConfigExists = false → w.oldConfigExists = false →
      w.defaultUtilsDirExists = true →
      getProjectConfig w =
        some ⟨detectTypeScriptProject w, str "lib/utils", w.cwd⟩) ∧
    (w.newConfigExists = false → w.oldConfigExists = false →
      w.defaultUtilsDirExists = false → getProjectConfig w = none) ∧
    (detectTypeScriptProject w = true ↔
      (w.hasTsconfig = true ∨ w.hasTsconfigStarVariant = true ∨
        w.hasSrcTypesTs = true ∨ w.hasSrcIndexTs = true ∨
        (w.packageJsonExists = true ∧ ∃ p, w.packageJson = some p ∧
          (p.hasTypescriptDep = true ∨ p.hasTypesNodeDep = true ∨
            p.hasTsNodeDep = true)))) ∧
    (∀ env reg names opts fs, getProjectConfig w = none →
      add env reg (getProjectConfig w) names opts fs = (fs, [])) ∧
    (∀ reg names fs, getProjectConfig w = none →
      removeCmd reg (getProjectConfig w) names fs = (fs, [])) := by
  refine ⟨?_, ?_, ?_, ?_, ?_, ?_, ?_⟩
  · intro c hne hnc
    simp [getProjectConfig, hne, hnc]
  · intro c hne hoe hoc
    simp [getProjectConfig, hne, hoe, hoc]
  · intro hne hoe hde
    simp [getProjectConfig, hne, hoe, hde]
  · intro hne hoe hde
    simp [getProjectConfig, hne, hoe, hde]
  · unfold detectTypeScriptProject
    by_cases h1 : w.hasTsconfig = true ∨ w.hasTsconfigStarVariant = true ∨
        w.hasSrcTypesTs = true ∨ w.hasSrcIndexTs = true
    · rw [if_pos h1]
      constructor
      · intro _
        tauto
      · intro _
        rfl
    · rw [if_neg h1]
      by_cases h2 : w.packageJsonExists = true
      · rw [if_pos h2]
        cases hpj : w.packageJson with
        | none =>
          constructor
          · intro hf
            cases hf
          · intro hr
            rcases hr with h | h | h | h | ⟨_, p, hp, _⟩
            · exact absurd (Or.inl h) h1
            · exact absurd (Or.inr (Or.inl h)) h1
            · exact absurd (Or.inr (Or.inr (Or.inl h))) h1
            · exact absurd (Or.inr (Or.inr (Or.inr h))) h1
            · exact Option.noConfusion hp
        | some p =>
          constructor
          · intro hf
            exact Or.inr (Or.inr (Or.inr (Or.inr
              ⟨h2, p, rfl, of_decide_eq_true hf⟩)))
          · intro hr
            rcases hr with h | h | h | h | ⟨_, p1, hp1, hd⟩
            · exact absurd (Or.inl h) h1
            · exact absurd (Or.inr (Or.inl h)) h1
            · exact absurd (Or.inr (Or.inr (Or.inl h))) h1
            · exact absurd (Or.inr (Or.inr (Or.inr h))) h1
            · cases hp1
              exact decide_eq_true hd
      · rw [if_neg h2]
        constructor
        · intro hf
          cases hf
        · intro hr
          rcases hr with h | h | h | h | ⟨hp, _⟩
          · exact absurd (Or.inl h) h1
          · exact absurd (Or.inr (Or.inl h)) h1
          · exact absurd (Or.inr (Or.inr (Or.inl h))) h1
          · exact absurd (Or.inr (Or.inr (Or.inr h))) h1
          · exact absurd hp h2
  · intro env reg names opts fs hnone
    rw [hnone]
    simp only [add]
    by_cases hinv : (validateUtilities reg (expandCategoryNames reg names)).2 = []
    · rw [if_neg (by simp [hinv])]
    · rw [if_pos (by simpa using hinv)]
  · intro reg names fs hnone
    rw [hnone]
    rfl

/-- Witness for C8 on a world with no config files, no default directory,
and no typed-project markers: the locator reports not initialised and add
installs nothing. -/
theorem claim_C8_config_precedence_witness :
    getProjectConfig ⟨str "/p", false, none, false, none, false, false,
      false, false, false, false, none⟩ = none ∧
    add envT regABC
      (getProjectConfig ⟨str "/p", false, none, false, none, false, false,
        false, false, false, false, none⟩)
      [str "C"] ⟨false, false⟩ [] = ([], []) :=
  ⟨(claim_C8_config_precedence _).2.2.2.1 rfl rfl rfl,
    (claim_C8_config_precedence _).2.2.2.2.2.1 envT regABC [str "C"]
      ⟨false, false⟩ []
      ((claim_C8_config_precedence _).2.2.2.1 rfl rfl rfl)⟩

/-- C9 counterexample: a limit of zero is falsy in JS, so the slice is
skipped; searching the chain registry for A with limit zero returns one
result rather than at most zero. -/
theorem claim_C9_counterexample :
    (searchUtilities regABC (str "A") ⟨some 0, none, none⟩).length = 1 ∧
    ¬ ((searchUtilities regABC (str "A") ⟨some 0, none, none⟩).length ≤ 0) := by
  have hfil : regABC.utilities.filter
      (searchMatches ⟨some 0, none, none⟩ (strLower (str "A"))) = [uA] := rfl
  have h : searchUtilities regABC (str "A") ⟨some 0, none, none⟩ = [uA] := by
    unfold searchUtilities
    dsimp only
    rw [if_neg (by decide), hfil, List.mergeSort_singleton]
  rw [h]
  exact ⟨rfl, by decide⟩

/-- C9 amended: search returns exactly the utilities passing the
case-insensitive substring filter over the name and, when the
includeDescription option (defaulted to true) allows, the description,
with the optional category filter applied; the result is ordered by the
comparator rank (exact lowered-name match, then lowered-name prefix match,
then the rest) with lexicographic tie-break on the name; and it is
truncated to the first limit entries whenever a nonzero limit is given (a
zero limit is falsy in JS and leaves the list untruncated). -/
theorem claim_C9_search_contract (reg : Registry) (q : Str)
    (cat : Option Str) (incl : Option Bool) :
    (∀ u, u ∈ searchUtilities reg q ⟨none, cat, incl⟩ ↔
      u ∈ reg.utilities ∧
        searchMatches ⟨none, cat, incl⟩ (strLower q) u = true) ∧
    (searchUtilities reg q ⟨none, cat, incl⟩).Pairwise
      (fun a b => searchLe (strLower q) a b = true) ∧
    (∀ k : Nat, ¬ k = 0 →
      searchUtilities reg q ⟨some k, cat, incl⟩ =
        (searchUtilities reg q ⟨none, cat, incl⟩).take k ∧
      (searchUtilities reg q ⟨some k, cat, incl⟩).length ≤ k) := by
  refine ⟨?_, ?_, ?_⟩
  · intro u
    unfold searchUtilities
    dsimp only
    rw [List.Perm.mem_iff (List.mergeSort_perm _ _), List.mem_filter]
  · unfold searchUtilities
    dsimp only
    exact List.sorted_mergeSort (searchLe_trans (strLower q))
      (searchLe_total (strLower q)) _
  · intro k hk
    constructor
    · unfold searchUtilities
      dsimp only
      rw [if_pos hk]
      rfl
    · unfold searchUtilities
      dsimp only
      rw [if_pos hk, List.length_take]
      exact min_le_left _ _

/-- Witness for the amended C9: searching the chain registry for A with
limit one returns the single exact match. -/
theorem claim_C9_search_contract_witness :
    searchUtilities regABC (str "A") ⟨some 1, none, none⟩ =
      (searchUtilities regABC (str "A") ⟨none, none, none⟩).take 1 ∧
    (searchUtilities regABC (str "A") ⟨some 1, none, none⟩).length ≤ 1 :=
  (claim_C9_search_contract regABC (str "A") none none).2.2 1 (by decide)

/-- C10: with an empty request, category expansion returns the category tag
of every utility, one entry per utility in registry order with duplicates
retained, and add then validates these tags as utility names; consequently,
when no utility in the registry is named after any category tag, add
installs nothing. -/
theorem claim_C10_empty_request (reg : Registry) :
    expandCategoryNames reg [] = reg.utilities.map (fun u => u.category) ∧
    (∀ env config? opts fs,
      (∀ u, u ∈ reg.utilities → findUtility reg u.category = none) →
      add env reg config? [] opts fs = (fs, [])) := by
  constructor
  · rfl
  · intro env config? opts fs hnone
    cases hu : reg.utilities with
    | nil =>
      simp only [add]
      rw [if_neg (by simp [validateUtilities, expandCategoryNames, hu])]
      cases config? with
      | none => rfl
      | some config =>
        have hval : (validateUtilities reg
            (expandCategoryNames reg [])).1 = [] := by
          simp [validateUtilities, expandCategoryNames, hu]
        rw [hval]
        rfl
    | cons u0 rest =>
      have hmem : u0.category ∈
          (validateUtilities reg (expandCategoryNames reg [])).2 := by
        unfold validateUtilities expandCategoryNames
        rw [if_pos rfl]
        refine List.mem_filter.mpr ⟨List.mem_map.mpr
          ⟨u0, by rw [hu]; exact List.mem_cons_self u0 rest, rfl⟩, ?_⟩
        rw [hnone u0 (by rw [hu]; exact List.mem_cons_self u0 rest)]
        decide
      simp only [add]
      rw [if_pos (by
        intro hemp
        rw [hemp] at hmem
        cases hmem)]

/-- Witness for C10 on the chain registry, whose category tag misc names no
utility: the empty request installs nothing. -/
theorem claim_C10_empty_request_witness :
    expandCategoryNames regABC [] = regABC.utilities.map (fun u => u.category) ∧
    add envT regABC (some cfgT) [] ⟨false, false⟩ [] = ([], []) :=
  ⟨(claim_C10_empty_request regABC).1,
    (claim_C10_empty_request regABC).2 envT (some cfgT) ⟨false, false⟩ []
      (by decide)⟩

end ForgeUtils
